import Mathlib

/-!
Verification of the Optimised-Exibition repository core: frame building,
adjacency scoring and the ordering strategies, as implemented by the five
near-duplicate scripts `python.py`, `Optimised.py`, `op1gpt.py`,
`finalall.py` and `naveen.py`.

Tag strings are modelled by their dense integer ids (the Tag Index of the
spec is a bijection, so nothing is lost), Python sets of tags by
`Finset Nat`, and the mutable lists consumed by the greedy loops by
explicit lists threaded through fuel-based recursions, with fuel equal to
the list length at the call site so the fuel bound is never reached.
-/

/-- Orientation token of a painting: `L` is a landscape (single-item
frame), everything else is parsed as a portrait `P` (paired frame). -/
inductive Ori where
  | L : Ori
  | P : Ori
deriving DecidableEq, BEq

/-- A painting record: stable integer id (its 0-based input position),
orientation, and its tag set (tags as dense integer ids). Mirrors class
`Painting` of `python.py`. -/
structure Painting where
  id : Nat
  ori : Ori
  tags : Finset Nat
deriving DecidableEq

/-- `Painting.tag_count` of the scripts. -/
def Painting.tagCount (p : Painting) : Nat := p.tags.card

/-- A frameglass holds one landscape or (up to) two portraits. Mirrors
class `Frameglass` of `python.py`; its tag set and output ids are the
derived fields below. -/
structure Frameglass where
  paintings : List Painting
deriving DecidableEq

/-- Union of the tag sets of the paintings in the frame, as computed in
`Frameglass.__init__`. -/
def Frameglass.tags (fg : Frameglass) : Finset Nat :=
  List.foldl (fun s p => s ∪ p.tags) ∅ fg.paintings

/-- `Frameglass.tag_count`. -/
def Frameglass.tagCount (fg : Frameglass) : Nat := fg.tags.card

/-- The painting ids of the frame, in order (`get_output_line`). -/
def Frameglass.ids (fg : Frameglass) : List Nat := fg.paintings.map Painting.id

/-- `calculate_local_score` of `python.py` (also `op1gpt.py`,
`finalall.py`, and `compute_local_score` of `naveen.py`):
`min(common, only_in_first, only_in_second)` on explicit tag sets. -/
def localScore (A B : Frameglass) : Nat :=
  min (A.tags ∩ B.tags).card (min (A.tags \ B.tags).card ((B.tags \ A.tags).card))

/-- `local_score` of `Optimised.py`: the same quantity computed from the
intersection cardinality and the cached tag counts. -/
def optLocalScore (A B : Frameglass) : Nat :=
  min ((A.tags ∩ B.tags).card)
    (min (A.tagCount - (A.tags ∩ B.tags).card) (B.tagCount - (A.tags ∩ B.tags).card))

/-- `calculate_total_score` / `total_score` / `compute_global_score`:
sum of local scores of consecutive frames; 0 for sequences shorter
than 2. The indexed loop `for i in range(len - 1)` is rendered as the
recursion over adjacent pairs. -/
def totalScore : List Frameglass → Nat
  | a :: b :: t => localScore a b + totalScore (b :: t)
  | _ => 0

/-! ### First-maximum selection

All the selection loops of the scripts share one shape: iterate over the
candidates, keep the candidate whenever its score is strictly greater
than the best so far (the initial best score is `-1`, so the first
candidate always becomes the first best). The result is the first
candidate attaining the maximum score. Python `max(..., key=...)` has
the same semantics. -/

/-- One comparison step of the loops: replace the best `b` by the
candidate `c` only on a strictly greater score. -/
def pmStep (f : α → Nat) (b c : α) : α := if f c > f b then c else b

/-- The shared selection loop: first element attaining the maximum of
`f`, `none` on an empty candidate list. -/
def pickFirstMax (f : α → Nat) : List α → Option α
  | [] => none
  | a :: t => some (List.foldl (pmStep f) a t)

theorem pm_le_step (f : α → Nat) (a b : α) : f a ≤ f (pmStep f a b) := by
  unfold pmStep
  split
  · omega
  · exact Nat.le_refl _

theorem pm_le_step2 (f : α → Nat) (a b : α) : f b ≤ f (pmStep f a b) := by
  unfold pmStep
  split
  · exact Nat.le_refl _
  · omega

theorem pm_step_cases (f : α → Nat) (a b : α) : pmStep f a b = a ∨ pmStep f a b = b := by
  unfold pmStep
  split
  · exact Or.inr rfl
  · exact Or.inl rfl

theorem pm_le_fold (f : α → Nat) (t : List α) :
    ∀ a : α, f a ≤ f (List.foldl (pmStep f) a t) := by
  induction t with
  | nil => intro a; exact Nat.le_refl _
  | cons b t ih =>
    intro a
    exact Nat.le_trans (pm_le_step f a b) (ih (pmStep f a b))

theorem pm_fold_mem (f : α → Nat) (t : List α) :
    ∀ a : α, List.foldl (pmStep f) a t ∈ a :: t := by
  induction t with
  | nil => intro a; simp
  | cons b t ih =>
    intro a
    simp only [List.foldl]
    rcases pm_step_cases f a b with h1 | h1 <;> rw [h1]
    · rcases List.mem_cons.mp (ih a) with h | h
      · rw [h]; exact List.mem_cons_self _ _
      · exact List.mem_cons_of_mem _ (List.mem_cons_of_mem _ h)
    · exact List.mem_cons_of_mem _ (ih b)

theorem pm_fold_max (f : α → Nat) (t : List α) :
    ∀ a : α, ∀ x ∈ a :: t, f x ≤ f (List.foldl (pmStep f) a t) := by
  induction t with
  | nil =>
    intro a x hx
    simp only [List.mem_singleton] at hx
    subst hx
    exact Nat.le_refl _
  | cons b t ih =>
    intro a x hx
    simp only [List.foldl]
    rcases List.mem_cons.mp hx with h | h
    · subst h
      exact Nat.le_trans (pm_le_step f x b) (ih (pmStep f x b) _ (List.mem_cons_self _ _))
    · rcases List.mem_cons.mp h with h2 | h2
      · subst h2
        exact Nat.le_trans (pm_le_step2 f a x) (ih (pmStep f a x) _ (List.mem_cons_self _ _))
      · exact ih (pmStep f a b) x (List.mem_cons_of_mem _ h2)

theorem pm_find? (f : α → Nat) (t : List α) :
    ∀ a : α, List.find? (fun x => decide (f (List.foldl (pmStep f) a t) ≤ f x)) (a :: t)
      = some (List.foldl (pmStep f) a t) := by
  induction t with
  | nil =>
    intro a
    simp [List.find?]
  | cons b t ih =>
    intro a
    by_cases hba : f b > f a
    · have hstep : pmStep f a b = b := by unfold pmStep; simp [hba]
      have hr : f b ≤ f (List.foldl (pmStep f) b t) := pm_le_fold f t b
      have hpa : ¬ ((fun x => decide (f (List.foldl (pmStep f) b t) ≤ f x)) a = true) := by
        simp only [decide_eq_true_eq]
        omega
      simp only [List.foldl, hstep]
      rw [List.find?_cons_of_neg (p := fun x => decide (f (List.foldl (pmStep f) b t) ≤ f x))
        _ hpa]
      exact ih b
    · have hstep : pmStep f a b = a := by unfold pmStep; simp [hba]
      have iha := ih a
      simp only [List.foldl, hstep]
      by_cases hpa : f (List.foldl (pmStep f) a t) ≤ f a
      · have hp : (fun x => decide (f (List.foldl (pmStep f) a t) ≤ f x)) a = true := by
          simp [hpa]
        rw [List.find?_cons_of_pos (p := fun x => decide (f (List.foldl (pmStep f) a t) ≤ f x))
          _ hp] at iha
        rw [List.find?_cons_of_pos (p := fun x => decide (f (List.foldl (pmStep f) a t) ≤ f x))
          _ hp]
        exact iha
      · have hp : ¬ ((fun x => decide (f (List.foldl (pmStep f) a t) ≤ f x)) a = true) := by
          simp [hpa]
        have hpb : ¬ ((fun x => decide (f (List.foldl (pmStep f) a t) ≤ f x)) b = true) := by
          simp only [decide_eq_true_eq]
          omega
        rw [List.find?_cons_of_neg (p := fun x => decide (f (List.foldl (pmStep f) a t) ≤ f x))
          _ hp] at iha
        rw [List.find?_cons_of_neg (p := fun x => decide (f (List.foldl (pmStep f) a t) ≤ f x))
          _ hp,
          List.find?_cons_of_neg (p := fun x => decide (f (List.foldl (pmStep f) a t) ≤ f x))
          _ hpb]
        exact iha

/-- The shared loop computes exactly the first candidate whose score is
greater or equal to that of every candidate: the maximum with ties
broken towards the earliest candidate. -/
theorem pickFirstMax_eq_find? (f : α → Nat) (l : List α) :
    pickFirstMax f l = List.find? (fun x => l.all (fun y => decide (f y ≤ f x))) l := by
  cases l with
  | nil => rfl
  | cons a t =>
    have hmem := pm_fold_mem f t a
    have hmax := pm_fold_max f t a
    have hpred : (fun x => (a :: t).all (fun y => decide (f y ≤ f x)))
        = (fun x => decide (f (List.foldl (pmStep f) a t) ≤ f x)) := by
      funext x
      by_cases hx : f (List.foldl (pmStep f) a t) ≤ f x
      · have h1 : decide (f (List.foldl (pmStep f) a t) ≤ f x) = true := by simp [hx]
        have h2 : (a :: t).all (fun y => decide (f y ≤ f x)) = true := by
          simp only [List.all_eq_true, decide_eq_true_eq]
          exact fun y hy => Nat.le_trans (hmax y hy) hx
        rw [h1, h2]
      · have h1 : decide (f (List.foldl (pmStep f) a t) ≤ f x) = false := by simp [hx]
        have h2 : ¬ ((a :: t).all (fun y => decide (f y ≤ f x)) = true) := by
          simp only [List.all_eq_true, decide_eq_true_eq]
          intro hall
          exact hx (hall _ hmem)
        rw [h1]
        exact Bool.eq_false_iff.mpr h2
    simp only [pickFirstMax]
    rw [hpred]
    exact (pm_find? f t a).symm

theorem pickFirstMax_mem (f : α → Nat) (l : List α) (r : α)
    (h : pickFirstMax f l = some r) : r ∈ l := by
  cases l with
  | nil => simp [pickFirstMax] at h
  | cons a t =>
    simp only [pickFirstMax, Option.some.injEq] at h
    subst h
    exact pm_fold_mem f t a

theorem pickFirstMax_max (f : α → Nat) (l : List α) (r : α)
    (h : pickFirstMax f l = some r) : ∀ x ∈ l, f x ≤ f r := by
  cases l with
  | nil => simp [pickFirstMax] at h
  | cons a t =>
    simp only [pickFirstMax, Option.some.injEq] at h
    subst h
    exact pm_fold_max f t a

theorem pickFirstMax_cons (f : α → Nat) (a : α) (t : List α) :
    pickFirstMax f (a :: t) = some (List.foldl (pmStep f) a t) := rfl

/-! ### Stable sorting

Python `list.sort` / `sorted` are stable. Insertion sort built by a
right fold is stable: the element being inserted comes from earlier in
the original list than everything already placed, so it moves past a
placed element only when its key is strictly on the wrong side. -/

/-- Insert keeping ascending key order, before any equal key. -/
def insertAscBy (key : α → Nat) (a : α) : List α → List α
  | [] => [a]
  | b :: t => if key b < key a then b :: insertAscBy key a t else a :: b :: t

/-- Stable ascending sort by key: `list.sort(key=...)`. -/
def sortAscBy (key : α → Nat) (l : List α) : List α := l.foldr (insertAscBy key) []

/-- Insert keeping descending key order, before any equal key. -/
def insertDescBy (key : α → Nat) (a : α) : List α → List α
  | [] => [a]
  | b :: t => if key b > key a then b :: insertDescBy key a t else a :: b :: t

/-- Stable descending sort by key: `sorted(key=..., reverse=True)`. -/
def sortDescBy (key : α → Nat) (l : List α) : List α := l.foldr (insertDescBy key) []

theorem insertAscBy_perm (key : α → Nat) (a : α) :
    ∀ l : List α, (insertAscBy key a l).Perm (a :: l) := by
  intro l
  induction l with
  | nil => simp [insertAscBy]
  | cons b t ih =>
    unfold insertAscBy
    split
    · exact (ih.cons b).trans (List.Perm.swap a b t)
    · exact List.Perm.refl _

theorem sortAscBy_perm (key : α → Nat) :
    ∀ l : List α, (sortAscBy key l).Perm l := by
  intro l
  induction l with
  | nil => exact List.Perm.refl _
  | cons a t ih =>
    exact (insertAscBy_perm key a (sortAscBy key t)).trans (ih.cons a)

theorem insertDescBy_perm (key : α → Nat) (a : α) :
    ∀ l : List α, (insertDescBy key a l).Perm (a :: l) := by
  intro l
  induction l with
  | nil => simp [insertDescBy]
  | cons b t ih =>
    unfold insertDescBy
    split
    · exact (ih.cons b).trans (List.Perm.swap a b t)
    · exact List.Perm.refl _

theorem sortDescBy_perm (key : α → Nat) :
    ∀ l : List α, (sortDescBy key l).Perm l := by
  intro l
  induction l with
  | nil => exact List.Perm.refl _
  | cons a t ih =>
    exact (insertDescBy_perm key a (sortDescBy key t)).trans (ih.cons a)

theorem sortAscBy_length (key : α → Nat) (l : List α) :
    (sortAscBy key l).length = l.length := (sortAscBy_perm key l).length_eq

theorem sortDescBy_length (key : α → Nat) (l : List α) :
    (sortDescBy key l).length = l.length := (sortDescBy_perm key l).length_eq

/-! ### Frame building -/

/-- Partner score of `create_frameglasses` in `python.py`:
`score = len(p1.tags | p2.tags) - 0.3 * len(p1.tags & p2.tags)`,
scaled by 10 to the integer `10*|union| - 3*|inter|`. The scaling keeps
every comparison between exact scores, and truncated subtraction never
truncates because the union is at least as large as the intersection. -/
def pairScore (p q : Painting) : Nat :=
  10 * (p.tags ∪ q.tags).card - 3 * (p.tags ∩ q.tags).card

/-- The portrait-pairing loop of `create_frameglasses` in `python.py`:
walk the (descending-sorted) list; the head, if any candidates remain,
is paired with the best unused partner (first maximum of `pairScore`,
matching the strict-greater update of the loop) and both leave the
candidate pool; a final lone painting is returned as the leftover.
Fuel-based recursion; callers pass the list length, which the fuel
bound never falls below. -/
def pairAll : Nat → List Painting → List (Painting × Painting) × Option Painting
  | _, [] => ([], none)
  | _, [p] => ([], some p)
  | 0, _ :: _ :: _ => ([], none)
  | fuel + 1, p :: q0 :: rest =>
      match pickFirstMax (pairScore p) (q0 :: rest) with
      | none => ([], some p)
      | some q =>
          let pr := pairAll fuel ((q0 :: rest).erase q)
          ((p, q) :: pr.1, pr.2)

/-- `create_frameglasses` of `python.py`: one frame per landscape, then
the greedy minimum-overlap pairs of the portraits sorted descending by
tag count, then the odd leftover portrait (if any) as a singleton
frame. -/
def pyCreateFrameglasses (landscapes portraits : List Painting) : List Frameglass :=
  (landscapes.map fun p => (⟨[p]⟩ : Frameglass))
    ++ (pairAll (sortDescBy Painting.tagCount portraits).length
        (sortDescBy Painting.tagCount portraits)).1.map
          (fun pq => (⟨[pq.1, pq.2]⟩ : Frameglass))
    ++ (pairAll (sortDescBy Painting.tagCount portraits).length
        (sortDescBy Painting.tagCount portraits)).2.toList.map
          (fun p => (⟨[p]⟩ : Frameglass))

/-- The pairing loop as worded by the spec (section 4.2): for each
unpaired item in descending cardinality order, select among the
remaining unpaired items the partner maximizing the score, lowest
position first on ties, and never reassign a paired item. -/
def specPairAll : Nat → List Painting → List (Painting × Painting) × Option Painting
  | _, [] => ([], none)
  | _, [p] => ([], some p)
  | 0, _ :: _ :: _ => ([], none)
  | fuel + 1, p :: q0 :: rest =>
      match (q0 :: rest).find?
          (fun q => (q0 :: rest).all (fun q2 => decide (pairScore p q2 ≤ pairScore p q))) with
      | none => ([], some p)
      | some q =>
          let pr := specPairAll fuel ((q0 :: rest).erase q)
          ((p, q) :: pr.1, pr.2)

/-- The Frame Builder as worded by the spec: singleton frames for the
single orientation, minimum-overlap pairs for the paired orientation,
odd leftover emitted as a singleton frame. -/
def specMinOverlapFrames (landscapes portraits : List Painting) : List Frameglass :=
  (landscapes.map fun p => (⟨[p]⟩ : Frameglass))
    ++ (specPairAll (sortDescBy Painting.tagCount portraits).length
        (sortDescBy Painting.tagCount portraits)).1.map
          (fun pq => (⟨[pq.1, pq.2]⟩ : Frameglass))
    ++ (specPairAll (sortDescBy Painting.tagCount portraits).length
        (sortDescBy Painting.tagCount portraits)).2.toList.map
          (fun p => (⟨[p]⟩ : Frameglass))

theorem pairAll_eq_spec : ∀ (fuel : Nat) (l : List Painting),
    pairAll fuel l = specPairAll fuel l := by
  intro fuel
  induction fuel with
  | zero =>
    intro l
    match l with
    | [] => rfl
    | [p] => rfl
    | p :: q0 :: rest => rfl
  | succ fuel ih =>
    intro l
    match l with
    | [] => rfl
    | [p] => rfl
    | p :: q0 :: rest =>
      have hsel := pickFirstMax_eq_find? (pairScore p) (q0 :: rest)
      simp only [pairAll, specPairAll, ← hsel, pickFirstMax_cons]
      rw [ih]

theorem pairAll_cons2 (fuel : Nat) (p q0 : Painting) (rest : List Painting) :
    pairAll (fuel + 1) (p :: q0 :: rest)
      = ((p, List.foldl (pmStep (pairScore p)) q0 rest) ::
          (pairAll fuel ((q0 :: rest).erase (List.foldl (pmStep (pairScore p)) q0 rest))).1,
         (pairAll fuel ((q0 :: rest).erase (List.foldl (pmStep (pairScore p)) q0 rest))).2) :=
  rfl

/-- Pairing consumes the candidate list without loss: the pairs hold
`floor(n/2)` two-element groups, the leftover exists exactly when `n`
is odd, and together they are a permutation of the input list. -/
theorem pairAll_partition : ∀ (fuel : Nat) (l : List Painting), l.length ≤ fuel →
    (pairAll fuel l).1.length = l.length / 2 ∧
    (pairAll fuel l).2.toList.length = l.length % 2 ∧
    ((pairAll fuel l).1.flatMap (fun pq => [pq.1, pq.2])
      ++ (pairAll fuel l).2.toList).Perm l := by
  intro fuel
  induction fuel with
  | zero =>
    intro l hl
    have hnil : l = [] := List.length_eq_zero.mp (Nat.le_zero.mp hl)
    subst hnil
    simp [pairAll]
  | succ fuel ih =>
    intro l hl
    match l with
    | [] => simp [pairAll]
    | [p] => simp [pairAll]
    | p :: q0 :: rest =>
      have hqmem : List.foldl (pmStep (pairScore p)) q0 rest ∈ q0 :: rest :=
        pm_fold_mem _ rest q0
      have hlen : ((q0 :: rest).erase (List.foldl (pmStep (pairScore p)) q0 rest)).length
          = rest.length := by
        rw [List.length_erase_of_mem hqmem]
        simp
      have hle : ((q0 :: rest).erase (List.foldl (pmStep (pairScore p)) q0 rest)).length
          ≤ fuel := by
        rw [hlen]
        simp only [List.length_cons] at hl
        omega
      obtain ⟨ih1, ih2, ih3⟩ := ih _ hle
      rw [pairAll_cons2]
      refine ⟨?_, ?_, ?_⟩
      · simp only [List.length_cons, ih1, hlen, List.length_cons]
        omega
      · simp only [ih2, hlen, List.length_cons]
        omega
      · have hperm2 : (List.foldl (pmStep (pairScore p)) q0 rest ::
            (q0 :: rest).erase (List.foldl (pmStep (pairScore p)) q0 rest)).Perm
            (q0 :: rest) := (List.perm_cons_erase hqmem).symm
        have hmain := ((ih3.cons (List.foldl (pmStep (pairScore p)) q0 rest)).trans
          hperm2).cons p
        simpa using hmain

theorem bind_ids_singles (L : List Painting) :
    ((L.map fun p => (⟨[p]⟩ : Frameglass)).flatMap Frameglass.ids) = L.map Painting.id := by
  induction L with
  | nil => rfl
  | cons p t ih => simp [Frameglass.ids, ih]

theorem bind_ids_pairs (P : List (Painting × Painting)) :
    ((P.map fun pq => (⟨[pq.1, pq.2]⟩ : Frameglass)).flatMap Frameglass.ids)
      = (P.flatMap fun pq => [pq.1, pq.2]).map Painting.id := by
  induction P with
  | nil => rfl
  | cons pq t ih => simp [Frameglass.ids, ih]

theorem bind_ids_leftover (o : Option Painting) :
    ((o.toList.map fun p => (⟨[p]⟩ : Frameglass)).flatMap Frameglass.ids)
      = o.toList.map Painting.id := by
  cases o <;> rfl

/-- C1 (amended): for the `python.py` Frame Builder the output frames
partition the painting set: the number of frames is
`#landscapes + ceil(#portraits / 2)`, and the ids listed across all
frames are a permutation of the input ids — so with distinct input ids
every item id appears in exactly one frame, and the odd leftover
portrait is emitted as its own singleton frame rather than dropped.
(The `naveen.py` variant violates this; see its counterexample.) -/
theorem py_frame_builder_partition (landscapes portraits : List Painting) :
    (pyCreateFrameglasses landscapes portraits).length
        = landscapes.length + (portraits.length + 1) / 2 ∧
    ((pyCreateFrameglasses landscapes portraits).flatMap Frameglass.ids).Perm
        ((landscapes ++ portraits).map Painting.id) := by
  unfold pyCreateFrameglasses
  have hspl : (sortDescBy Painting.tagCount portraits).length = portraits.length :=
    sortDescBy_length _ _
  have hperm : (sortDescBy Painting.tagCount portraits).Perm portraits :=
    sortDescBy_perm _ _
  obtain ⟨h1, h2, h3⟩ := pairAll_partition (sortDescBy Painting.tagCount portraits).length
    (sortDescBy Painting.tagCount portraits) (Nat.le_refl _)
  constructor
  · simp only [List.length_append, List.length_map]
    rw [h1, h2, hspl]
    omega
  · rw [List.flatMap_append, List.flatMap_append, bind_ids_singles, bind_ids_pairs,
      bind_ids_leftover, List.map_append, List.append_assoc, ← List.map_append]
    exact List.Perm.append_left _ ((h3.map Painting.id).trans (hperm.map Painting.id))

/-- Consecutive pairing of `naveen.py` (`for i in range(0, len, 2)`). -/
def naveenPairs : List Painting → List Frameglass
  | p1 :: p2 :: t => (⟨[p1, p2]⟩ : Frameglass) :: naveenPairs t
  | _ => []

/-- `create_frameglasses` of `naveen.py`: one frame per landscape, then
consecutive portrait pairs; when the portrait count is odd the LAST
portrait is dropped (`portraits = portraits[:-1]`) with only a printed
warning. -/
def naveenCreateFrameglasses (paintings : List Painting) : List Frameglass :=
  let landscapes := paintings.filter (fun p => p.ori == Ori.L)
  let portraits := paintings.filter (fun p => p.ori == Ori.P)
  let kept := if portraits.length % 2 ≠ 0 then portraits.dropLast else portraits
  (landscapes.map fun p => (⟨[p]⟩ : Frameglass)) ++ naveenPairs kept

def demoPortrait : Painting := ⟨0, Ori.P, {0}⟩

/-- C1 counterexample: on a catalog holding exactly one portrait, the
`naveen.py` Frame Builder outputs zero frames, while the claim demands
`0 + ceil(1/2) = 1` frame holding painting id 0: the odd leftover is
dropped, not emitted as a singleton frame. -/
theorem naveen_frame_builder_drops_cex :
    naveenCreateFrameglasses [demoPortrait] = [] ∧ (0 + (1 + 1) / 2 : Nat) = 1 :=
  ⟨by decide, rfl⟩

/-- The two-pointer portrait pairing of `create_frames` in
`Optimised.py`: `i, j = 0, len - 1; while i < j: pair(p[i], p[j])`,
with the middle element (odd length) emitted as a singleton frame. -/
def twoPointerPairs : Nat → List Painting → List Frameglass
  | _, [] => []
  | _, [p] => [(⟨[p]⟩ : Frameglass)]
  | 0, _ :: _ :: _ => []
  | fuel + 1, p :: q :: rest =>
      (⟨[p, (q :: rest).getLast (List.cons_ne_nil q rest)]⟩ : Frameglass)
        :: twoPointerPairs fuel (q :: rest).dropLast

/-- `create_frames` of `Optimised.py`: landscape singletons, then the
two-pointer pairing of the portraits sorted ASCENDING by tag count. -/
def optCreateFrames (landscapes portraits : List Painting) : List Frameglass :=
  let sorted := sortAscBy Painting.tagCount portraits
  (landscapes.map fun p => (⟨[p]⟩ : Frameglass)) ++ twoPointerPairs sorted.length sorted

def cexP0 : Painting := ⟨0, Ori.P, {0}⟩
def cexP1 : Painting := ⟨1, Ori.P, {0}⟩
def cexP2 : Painting := ⟨2, Ori.P, ({0, 1} : Finset Nat)⟩
def cexP3 : Painting := ⟨3, Ori.P, ({2, 3} : Finset Nat)⟩

/-- C4 counterexample: on four concrete portraits the `Optimised.py`
builder pairs ids (0,3) and (1,2), while the minimum-overlap rule the
claim states pairs (2,3) and (0,1): the two frame lists differ, so the
`Optimised.py` Frame Builder does not pair by the minimum-overlap
heuristic. -/
theorem opt_create_frames_not_min_overlap_cex :
    (optCreateFrames [] [cexP0, cexP1, cexP2, cexP3]).map Frameglass.ids
        = [[0, 3], [1, 2]] ∧
    (specMinOverlapFrames [] [cexP0, cexP1, cexP2, cexP3]).map Frameglass.ids
        = [[2, 3], [0, 1]] ∧
    (decide (([[0, 3], [1, 2]] : List (List Nat)) = [[2, 3], [0, 1]])) = false :=
  ⟨by decide, by decide, by decide⟩

/-- C4 (amended): the `python.py` Frame Builder implements exactly the
minimum-overlap pairing heuristic worded by the spec — items processed
in descending tag-count order, each paired with the remaining candidate
maximizing `10*|union| - 3*|inter|` (the integer form of
`|union| - 0.3*|inter|`), first maximum on ties, no reassignment. The
`Optimised.py` builder uses a different ascending-sort two-pointer
pairing instead (see the counterexample). -/
theorem py_pairing_eq_min_overlap_spec :
    ∀ landscapes portraits : List Painting,
      pyCreateFrameglasses landscapes portraits
        = specMinOverlapFrames landscapes portraits := by
  intro L P
  unfold pyCreateFrameglasses specMinOverlapFrames
  rw [pairAll_eq_spec]

/-! ### Simple ordering strategies -/

/-- `order_same` / `strat_same`. -/
def orderSame (l : List Frameglass) : List Frameglass := l

/-- `order_reverse` / `strat_reverse`. -/
def orderReverse (l : List Frameglass) : List Frameglass := l.reverse

/-- `order_by_tag_count` of `python.py`: stable sort by tag count,
descending (`reverse=True`). -/
def pyOrderByTagCount (l : List Frameglass) : List Frameglass :=
  sortDescBy Frameglass.tagCount l

theorem localScore_comm (A B : Frameglass) : localScore A B = localScore B A := by
  unfold localScore
  rw [Finset.inter_comm]
  omega

theorem optLocalScore_comm (A B : Frameglass) : optLocalScore A B = optLocalScore B A := by
  unfold optLocalScore
  rw [Finset.inter_comm]
  omega

/-- C6: the local adjacency score is symmetric in its two frames, both
in the set-difference form of `python.py` and in the cached-count form
of `Optimised.py`. -/
theorem local_score_symmetric :
    ∀ A B : Frameglass,
      localScore A B = localScore B A ∧ optLocalScore A B = optLocalScore B A :=
  fun A B => ⟨localScore_comm A B, optLocalScore_comm A B⟩

/-- Score contributed by appending one frame at the end of a sequence:
the boundary with the previous last frame, if any. -/
def lastLink (l : List Frameglass) (a : Frameglass) : Nat :=
  match l.getLast? with
  | none => 0
  | some b => localScore b a

theorem totalScore_append_last (a : Frameglass) :
    ∀ l : List Frameglass, totalScore (l ++ [a]) = totalScore l + lastLink l a := by
  intro l
  induction l with
  | nil => simp [totalScore, lastLink]
  | cons x t ih =>
    cases t with
    | nil => simp [totalScore, lastLink]
    | cons y t2 =>
      have h1 : totalScore ((x :: y :: t2) ++ [a])
          = localScore x y + totalScore ((y :: t2) ++ [a]) := rfl
      have h2 : totalScore (x :: y :: t2) = localScore x y + totalScore (y :: t2) := rfl
      rw [h1, ih, h2]
      have hlast : lastLink (x :: y :: t2) a = lastLink (y :: t2) a := by
        unfold lastLink
        rw [List.getLast?_cons_cons]
      rw [hlast]
      omega

/-- C7: the global score of a frame sequence is invariant under
reversal: `calculate_total_score` gives `order_reverse` the same score
as `order_same`. -/
theorem total_score_reverse_invariant :
    ∀ l : List Frameglass, totalScore (orderReverse l) = totalScore l := by
  intro l
  unfold orderReverse
  induction l with
  | nil => rfl
  | cons x t ih =>
    rw [List.reverse_cons, totalScore_append_last, ih]
    cases t with
    | nil => simp [totalScore, lastLink]
    | cons y t2 =>
      have hh : (y :: t2).reverse.getLast? = some y := by
        rw [List.getLast?_reverse]
        rfl
      simp only [totalScore, lastLink, hh]
      rw [localScore_comm y x]
      omega

/-! ### The exhaustive greedy (`order_greedy` of `python.py`) -/

def defaultFrame : Frameglass := ⟨[]⟩

/-- The selection loop of `order_greedy`: while indices remain, append
the remaining frame with the maximal local score against the current
one (strict-greater update over the ascending index list, so the first
and hence lowest-index maximum wins) and drop its index. -/
def greedyLoop (fgs : List Frameglass) : Nat → Frameglass → List Nat → List Frameglass
  | 0, _, _ => []
  | fuel + 1, cur, remaining =>
      match pickFirstMax (fun i => localScore cur (fgs.getD i defaultFrame)) remaining with
      | none => []
      | some i => fgs.getD i defaultFrame ::
          greedyLoop fgs fuel (fgs.getD i defaultFrame) (remaining.erase i)

/-- `order_greedy` of `python.py`: start from the frame with the most
tags (`max(range(n), key=...)` keeps the first maximum, hence the
lowest index), then run the greedy selection loop over the other
indices. The CPython iteration over the index set `set(range(n))`
visits the dense small ints in ascending numeric order, so the
remaining indices are modelled as an ascending list. -/
def orderGreedy (fgs : List Frameglass) : List Frameglass :=
  match pickFirstMax (fun i => (fgs.getD i defaultFrame).tagCount)
      (List.range fgs.length) with
  | none => []
  | some s => fgs.getD s defaultFrame ::
      greedyLoop fgs fgs.length (fgs.getD s defaultFrame)
        ((List.range fgs.length).erase s)

/-- Selection as worded by the spec: the candidate whose score is at
least that of every candidate, earliest (= lowest index, over an
ascending index list) on ties. -/
def specPick (f : Nat → Nat) (l : List Nat) : Option Nat :=
  l.find? (fun i => l.all (fun j => decide (f j ≤ f i)))

/-- The exhaustive-greedy selection loop as worded by the spec. -/
def specGreedyLoop (fgs : List Frameglass) : Nat → Frameglass → List Nat → List Frameglass
  | 0, _, _ => []
  | fuel + 1, cur, remaining =>
      match specPick (fun i => localScore cur (fgs.getD i defaultFrame)) remaining with
      | none => []
      | some i => fgs.getD i defaultFrame ::
          specGreedyLoop fgs fuel (fgs.getD i defaultFrame) (remaining.erase i)

/-- The exhaustive greedy as worded by the spec: start from the frame
with the largest tag-set cardinality (lowest original index on ties),
then repeatedly select among all not-yet-placed frames the one
maximizing the local score with the last placed (lowest original index
on ties). -/
def specGreedyOrder (fgs : List Frameglass) : List Frameglass :=
  match specPick (fun i => (fgs.getD i defaultFrame).tagCount)
      (List.range fgs.length) with
  | none => []
  | some s => fgs.getD s defaultFrame ::
      specGreedyLoop fgs fgs.length (fgs.getD s defaultFrame)
        ((List.range fgs.length).erase s)

theorem greedyLoop_eq_spec (fgs : List Frameglass) :
    ∀ (fuel : Nat) (cur : Frameglass) (remaining : List Nat),
      greedyLoop fgs fuel cur remaining = specGreedyLoop fgs fuel cur remaining := by
  intro fuel
  induction fuel with
  | zero => intro cur r; rfl
  | succ fuel ih =>
    intro cur r
    simp only [greedyLoop, specGreedyLoop, specPick, ← pickFirstMax_eq_find?]
    cases h : pickFirstMax (fun i => localScore cur (fgs.getD i defaultFrame)) r with
    | none => rfl
    | some i => simp [ih]

/-- C2: `order_greedy` of `python.py` computes exactly the exhaustive
greedy of the spec: it starts from the frame with the largest tag-set
cardinality (ties to the lowest original index) and then repeatedly
appends, among all not-yet-placed frames, the frame maximizing the
local score with the last-placed frame (ties to the lowest original
index). -/
theorem order_greedy_matches_exhaustive_spec :
    ∀ fgs : List Frameglass, orderGreedy fgs = specGreedyOrder fgs := by
  intro fgs
  unfold orderGreedy specGreedyOrder specPick
  rw [← pickFirstMax_eq_find?]
  cases h : pickFirstMax (fun i => (fgs.getD i defaultFrame).tagCount)
      (List.range fgs.length) with
  | none => rfl
  | some s => simp [greedyLoop_eq_spec]

/-! ### The randomized strategy

`order_random` / `strat_random` call `random.shuffle` on a copy of the
frame list. None of the scripts takes or sets a seed: the shuffle draws
from the global generator. The generator is modelled by the stream of
naturals it produces; a call consumes `len - 1` draws (the Fisher-Yates
loop of CPython shuffle) and leaves the advanced stream behind, which a
second call in the same process then consumes. -/

/-- Swap the elements at positions `i` and `j` (identity when either
index is out of range). -/
def swapIdx (l : List α) (i j : Nat) : List α :=
  match l[i]?, l[j]? with
  | some a, some b => (l.set i b).set j a
  | _, _ => l

/-- Fisher-Yates loop of CPython `random.shuffle`:
`for i in reversed(range(1, len(x))): j = randbelow(i + 1); swap(i, j)`,
with the raw draws read from the stream `g` at increasing offsets. -/
def fyLoop (g : Nat → Nat) : Nat → Nat → List α → List α
  | _, 0, l => l
  | off, i + 1, l => fyLoop g (off + 1) i (swapIdx l (i + 1) (g off % (i + 2)))

/-- `order_random` of `python.py` (= `strat_random` of `Optimised.py`):
shuffle a copy of the frame list in place; returns the shuffled list
and the advanced global generator stream. There is no seed
parameter. -/
def orderRandom (l : List Frameglass) (g : Nat → Nat) :
    List Frameglass × (Nat → Nat) :=
  (fyLoop g 0 (l.length - 1) l, fun k => g (k + (l.length - 1)))

theorem cons_set_perm : ∀ (t : List α) (m : Nat) (a b : α),
    t[m]? = some b → (b :: t.set m a).Perm (a :: t) := by
  intro t
  induction t with
  | nil => intro m a b h; simp at h
  | cons c s ih =>
    intro m a b h
    cases m with
    | zero =>
      simp only [List.getElem?_cons_zero, Option.some.injEq] at h
      subst h
      simp only [List.set_cons_zero]
      exact List.Perm.swap a c s
    | succ k =>
      simp only [List.getElem?_cons_succ] at h
      simp only [List.set_cons_succ]
      exact ((List.Perm.swap c b _).trans ((ih k a b h).cons c)).trans
        (List.Perm.swap a c s)

theorem swapIdx_perm (l : List α) (i j : Nat) : (swapIdx l i j).Perm l := by
  unfold swapIdx
  induction l generalizing i j with
  | nil => simp
  | cons c s ih =>
    cases i with
    | zero =>
      cases j with
      | zero =>
        simp only [List.getElem?_cons_zero, List.set_cons_zero]
        exact List.Perm.refl _
      | succ m =>
        simp only [List.getElem?_cons_zero, List.getElem?_cons_succ]
        cases hj : s[m]? with
        | none => exact List.Perm.refl _
        | some b =>
          simp only [List.set_cons_zero, List.set_cons_succ]
          exact cons_set_perm s m c b hj
    | succ k =>
      cases j with
      | zero =>
        simp only [List.getElem?_cons_succ, List.getElem?_cons_zero]
        cases hi : s[k]? with
        | none => exact List.Perm.refl _
        | some a =>
          simp only [List.set_cons_succ, List.set_cons_zero]
          exact cons_set_perm s k c a hi
      | succ m =>
        simp only [List.getElem?_cons_succ]
        cases hi : s[k]? with
        | none => exact List.Perm.refl _
        | some a =>
          cases hj : s[m]? with
          | none => exact List.Perm.refl _
          | some b =>
            simp only [List.set_cons_succ]
            have := ih k m
            rw [hi, hj] at this
            exact this.cons c

theorem fyLoop_perm (g : Nat → Nat) :
    ∀ (i off : Nat) (l : List α), (fyLoop g off i l).Perm l := by
  intro i
  induction i with
  | zero => intro off l; exact List.Perm.refl _
  | succ i ih =>
    intro off l
    exact (ih (off + 1) _).trans (swapIdx_perm l (i + 1) (g off % (i + 2)))

/-- C9 (amended): `order_random` takes no seed parameter; it shuffles
with draws from the ambient global generator state. Modelling that
state explicitly, the output is always a permutation of the input and
is a pure function of the input together with the consumed stream, but
two successive calls read different parts of the stream (see the
counterexample), so runs are reproducible only by fixing the global
state externally, not through any seed argument. -/
theorem order_random_produces_perm :
    ∀ (l : List Frameglass) (g : Nat → Nat), (orderRandom l g).1.Perm l := by
  intro l g
  exact fyLoop_perm g _ 0 l

def cexFgA : Frameglass := ⟨[⟨0, Ori.L, {0}⟩]⟩
def cexFgB : Frameglass := ⟨[⟨1, Ori.L, {1}⟩]⟩

/-- C9 counterexample: with the global generator state modelled by the
concrete stream `fun k => k`, running `order_random` twice in
succession on the same two-frame input (the second run consuming the
state the first left behind, as two calls in one process do) yields two
different permutations: no fixed seed argument exists to make the runs
reproduce. -/
theorem order_random_successive_runs_differ_cex :
    (orderRandom [cexFgA, cexFgB] (fun k => k)).1 = [cexFgB, cexFgA] ∧
    (orderRandom [cexFgA, cexFgB]
        ((orderRandom [cexFgA, cexFgB] (fun k => k)).2)).1 = [cexFgA, cexFgB] ∧
    (decide (([cexFgB, cexFgA] : List Frameglass) = [cexFgA, cexFgB])) = false :=
  ⟨by decide, by decide, by decide⟩

/-! ### Selecting the best variant -/

/-- The strategy-evaluation loop of `solve_file` in `python.py` and of
`process_file_worker` in `Optimised.py`: run through the computed
orderings in the fixed dict order and keep the one whose total score is
strictly greater than the best so far (`best_score` starts at `-1` and
every total score is a nonnegative integer, so the first variant always
seeds the best). -/
def selectBest (rs : List (List Frameglass)) : Option (List Frameglass) :=
  pickFirstMax totalScore rs

/-- The five variants in the fixed evaluation order of the strategy
dict: same, reverse, random, by_tags, greedy. -/
def runAllStrategies (fgs : List Frameglass) (g : Nat → Nat) :
    List (List Frameglass) :=
  [orderSame fgs, orderReverse fgs, (orderRandom fgs g).1, pyOrderByTagCount fgs,
    orderGreedy fgs]

/-- C3: running all variants and keeping the best is deterministic
given the variants outputs: the kept permutation is one of the computed
ones, has the maximal total score among them, and is the first one in
the fixed evaluation order attaining that score (the `find?` clause:
the earliest variant whose score reaches the score of the kept one is
the kept one itself). -/
theorem solve_file_selects_first_best :
    ∀ (fgs : List Frameglass) (g : Nat → Nat),
      ∃ best, selectBest (runAllStrategies fgs g) = some best ∧
        best ∈ runAllStrategies fgs g ∧
        (runAllStrategies fgs g).all
          (fun r => decide (totalScore r ≤ totalScore best)) = true ∧
        (runAllStrategies fgs g).find?
          (fun r => decide (totalScore best ≤ totalScore r)) = some best := by
  intro fgs g
  refine ⟨List.foldl (pmStep totalScore) (orderSame fgs)
    [orderReverse fgs, (orderRandom fgs g).1, pyOrderByTagCount fgs, orderGreedy fgs],
    rfl, ?_, ?_, ?_⟩
  · exact pm_fold_mem totalScore _ _
  · simp only [List.all_eq_true, decide_eq_true_eq]
    exact fun r hr => pm_fold_max totalScore _ _ r hr
  · exact pm_find? totalScore _ _

/-! ### The windowed greedy (`order_greedy_similarity` of `op1gpt.py`) -/

/-- Absolute difference of two naturals (`abs(a - b)` in Python). -/
def keyDist (a b : Nat) : Nat := max a b - min a b

/-- The inner scan of the large-batch branch: update the best on a
strictly greater score, then break out as soon as the running best
score reaches 8 (`if best_score >= 8: break`). Invariant maintained by
the callers: the third argument is the score of the second. -/
def scanBreak (f : α → Nat) : List α → α → Nat → α
  | [], b, _ => b
  | c :: t, b, sb =>
      if f c > sb then
        (if 8 ≤ f c then c else scanBreak f t c (f c))
      else
        (if 8 ≤ sb then b else scanBreak f t b sb)

/-- Scan of a candidate window: the first iteration always updates the
best (initial best score -1), then `scanBreak` continues. -/
def scanWindow (f : α → Nat) : List α → Option α
  | [] => none
  | c :: t => some (if 8 ≤ f c then c else scanBreak f t c (f c))

/-- The candidate window of one step of `order_greedy_similarity`: the
whole remaining list when at most `MIN_BATCH = 50` frames remain,
otherwise the first `BATCH = 300` frames of the remaining list sorted
ascending by tag-count distance to the current frame. -/
def ogsWindow (cur : Frameglass) (remaining : List Frameglass) : List Frameglass :=
  if remaining.length ≤ 50 then remaining
  else (sortAscBy (fun fg => keyDist fg.tagCount cur.tagCount) remaining).take 300

/-- One selection step of `order_greedy_similarity`: pick from the
window (full scan below 51 candidates, break-at-8 scan otherwise) and
remove the picked frame from the working list (which the sort of the
large branch has reordered in place). -/
def ogsNext (cur : Frameglass) (remaining : List Frameglass) :
    Option (Frameglass × List Frameglass) :=
  match remaining with
  | [] => none
  | _ :: _ =>
    if remaining.length ≤ 50 then
      match pickFirstMax (localScore cur) remaining with
      | none => none
      | some q => some (q, remaining.erase q)
    else
      match scanWindow (localScore cur)
          ((sortAscBy (fun fg => keyDist fg.tagCount cur.tagCount) remaining).take 300) with
      | none => none
      | some q =>
          some (q, (sortAscBy (fun fg => keyDist fg.tagCount cur.tagCount) remaining).erase q)

def ogsLoop : Nat → Frameglass → List Frameglass → List Frameglass
  | 0, _, _ => []
  | fuel + 1, cur, remaining =>
      match ogsNext cur remaining with
      | none => []
      | some (q, rem) => q :: ogsLoop fuel q rem

/-- `order_greedy_similarity` of `op1gpt.py`: `current = remaining.pop(0)`
(on an empty list this raises IndexError, modelled as `none`), then the
windowed selection loop. -/
def orderGreedySimilarity (fgs : List Frameglass) : Option (List Frameglass) :=
  match fgs with
  | [] => none
  | x :: rest => some (x :: ogsLoop rest.length x rest)

theorem scanBreak_spec (f : α → Nat) :
    ∀ (t : List α) (b : α), scanBreak f t b (f b) ∈ b :: t ∧
      (8 ≤ f (scanBreak f t b (f b)) ∨
        ∀ c ∈ b :: t, f c ≤ f (scanBreak f t b (f b))) := by
  intro t
  induction t with
  | nil =>
    intro b
    constructor
    · simp [scanBreak]
    · right
      intro c hc
      simp only [scanBreak, List.mem_singleton] at hc ⊢
      subst hc
      exact Nat.le_refl _
  | cons c t ih =>
    intro b
    by_cases h1 : f c > f b
    · by_cases h2 : 8 ≤ f c
      · have hs : scanBreak f (c :: t) b (f b) = c := by
          simp only [scanBreak]
          rw [if_pos h1, if_pos h2]
        rw [hs]
        exact ⟨List.mem_cons_of_mem _ (List.mem_cons_self _ _), Or.inl h2⟩
      · have hs : scanBreak f (c :: t) b (f b) = scanBreak f t c (f c) := by
          simp only [scanBreak]
          rw [if_pos h1, if_neg h2]
        rw [hs]
        obtain ⟨ihm, ihd⟩ := ih c
        refine ⟨List.mem_cons_of_mem _ ihm, ?_⟩
        rcases ihd with hl | hr
        · exact Or.inl hl
        · right
          intro d hd
          rcases List.mem_cons.mp hd with hdb | hdt
          · subst hdb
            exact Nat.le_trans (Nat.le_of_lt h1) (hr c (List.mem_cons_self _ _))
          · exact hr d hdt
    · by_cases h2 : 8 ≤ f b
      · have hs : scanBreak f (c :: t) b (f b) = b := by
          simp only [scanBreak]
          rw [if_neg h1, if_pos h2]
        rw [hs]
        exact ⟨List.mem_cons_self _ _, Or.inl h2⟩
      · have hs : scanBreak f (c :: t) b (f b) = scanBreak f t b (f b) := by
          simp only [scanBreak]
          rw [if_neg h1, if_neg h2]
        rw [hs]
        obtain ⟨ihm, ihd⟩ := ih b
        constructor
        · rcases List.mem_cons.mp ihm with hm | hm
          · rw [hm]; exact List.mem_cons_self _ _
          · exact List.mem_cons_of_mem _ (List.mem_cons_of_mem _ hm)
        · rcases ihd with hl | hr
          · exact Or.inl hl
          · right
            intro d hd
            rcases List.mem_cons.mp hd with hdb | hdt
            · subst hdb
              exact hr d (List.mem_cons_self _ _)
            · rcases List.mem_cons.mp hdt with hdc | hdt2
              · subst hdc
                exact Nat.le_trans (Nat.le_of_not_lt h1)
                  (hr b (List.mem_cons_self _ _))
              · exact hr d (List.mem_cons_of_mem _ hdt2)

/-- C5 (amended): each selection step of the windowed greedy draws its
candidate from a never-empty bounded window (the full remaining list
when at most 50 frames remain, else the first 300 of the remaining
list sorted by tag-count distance to the current frame), and the
selected frame either maximizes the local score over that window OR is
the first window candidate whose score reaches the early-exit
threshold 8 (`if best_score >= 8: break`) — the selection is NOT
always the window maximum (see the counterexample). -/
theorem ogs_step_selects_from_window :
    ∀ (cur x : Frameglass) (rest : List Frameglass),
      0 < (ogsWindow cur (x :: rest)).length ∧
      ∃ q rem, ogsNext cur (x :: rest) = some (q, rem) ∧
        q ∈ ogsWindow cur (x :: rest) ∧
        (8 ≤ localScore cur q ∨
          (ogsWindow cur (x :: rest)).all
            (fun c => decide (localScore cur c ≤ localScore cur q)) = true) := by
  intro cur x rest
  by_cases hlen : (x :: rest).length ≤ 50
  · have hw : ogsWindow cur (x :: rest) = x :: rest := by
      unfold ogsWindow
      rw [if_pos hlen]
    constructor
    · rw [hw]; simp
    · refine ⟨List.foldl (pmStep (localScore cur)) x rest, (x :: rest).erase
        (List.foldl (pmStep (localScore cur)) x rest), ?_, ?_, ?_⟩
      · unfold ogsNext
        rw [if_pos hlen]
        rfl
      · rw [hw]
        exact pm_fold_mem _ _ _
      · right
        rw [hw]
        simp only [List.all_eq_true, decide_eq_true_eq]
        exact fun c hc => pm_fold_max _ _ _ c hc
  · have hw : ogsWindow cur (x :: rest)
        = (sortAscBy (fun fg => keyDist fg.tagCount cur.tagCount) (x :: rest)).take 300 := by
      unfold ogsWindow
      rw [if_neg hlen]
    have hsl : (sortAscBy (fun fg => keyDist fg.tagCount cur.tagCount) (x :: rest)).length
        = (x :: rest).length := sortAscBy_length _ _
    obtain ⟨s0, st, hcons⟩ : ∃ s0 st,
        sortAscBy (fun fg => keyDist fg.tagCount cur.tagCount) (x :: rest) = s0 :: st := by
      cases hs : sortAscBy (fun fg => keyDist fg.tagCount cur.tagCount) (x :: rest) with
      | nil => rw [hs] at hsl; simp at hsl
      | cons s0 st => exact ⟨s0, st, rfl⟩
    have htake : (sortAscBy (fun fg => keyDist fg.tagCount cur.tagCount) (x :: rest)).take 300
        = s0 :: st.take 299 := by
      rw [hcons]
      rfl
    constructor
    · rw [hw, htake]; simp
    · by_cases h8 : 8 ≤ localScore cur s0
      · refine ⟨s0, (sortAscBy (fun fg => keyDist fg.tagCount cur.tagCount)
          (x :: rest)).erase s0, ?_, ?_, Or.inl h8⟩
        · unfold ogsNext
          rw [if_neg hlen, htake]
          simp only [scanWindow]
          rw [if_pos h8]
        · rw [hw, htake]
          exact List.mem_cons_self _ _
      · obtain ⟨hmem, hdisj⟩ := scanBreak_spec (localScore cur) (st.take 299) s0
        refine ⟨scanBreak (localScore cur) (st.take 299) s0 (localScore cur s0),
          (sortAscBy (fun fg => keyDist fg.tagCount cur.tagCount)
            (x :: rest)).erase (scanBreak (localScore cur) (st.take 299) s0
              (localScore cur s0)), ?_, ?_, ?_⟩
        · unfold ogsNext
          rw [if_neg hlen, htake]
          simp only [scanWindow]
          rw [if_neg h8]
        · rw [hw, htake]
          exact hmem
        · rcases hdisj with hl | hr
          · exact Or.inl hl
          · right
            rw [hw, htake]
            simp only [List.all_eq_true, decide_eq_true_eq]
            exact hr

/-- `strat_greedy_fast` of `Optimised.py`: start from the frame with
the most tags (first maximum), then repeatedly take the local-score
maximum among only the first `LIMIT_CANDIDATES = 1000` remaining
frames, in original list order. -/
def sgfLoop : Nat → Frameglass → List Frameglass → List Frameglass
  | 0, _, _ => []
  | fuel + 1, cur, remaining =>
      match pickFirstMax (localScore cur) (remaining.take 1000) with
      | none => []
      | some q => q :: sgfLoop fuel q (remaining.erase q)

def stratGreedyFast (frames : List Frameglass) : List Frameglass :=
  match pickFirstMax Frameglass.tagCount frames with
  | none => []
  | some s => s :: sgfLoop frames.length s (frames.erase s)

def ogsCexStart : Frameglass := ⟨[⟨0, Ori.L, Finset.range 20⟩]⟩
def ogsCexC1 : Frameglass := ⟨[⟨1, Ori.L, Finset.range 8 ∪ Finset.Ico 100 112⟩]⟩
def ogsCexC2 : Frameglass := ⟨[⟨2, Ori.L, Finset.range 9 ∪ Finset.Ico 100 111⟩]⟩
def ogsCexFillers : List Frameglass :=
  (List.range 49).map (fun k => ⟨[⟨3 + k, Ori.L, {1000 + k}⟩]⟩)
def ogsCexInput : List Frameglass := ogsCexStart :: ogsCexC1 :: ogsCexC2 :: ogsCexFillers

set_option maxRecDepth 10000 in
set_option maxHeartbeats 2000000 in
/-- C5 counterexample: on a concrete 52-frame input (51 remaining
candidates after the start frame, so the large-batch branch runs) the
second frame placed by `order_greedy_similarity` is the first window
candidate with local score 8 — the early-exit threshold — although the
window at that step also holds a candidate with local score 9. The
windowed greedy therefore does not apply the maximize-local-score
selection rule of the exhaustive greedy on its window. -/
theorem ogs_early_break_not_max_cex :
    ((orderGreedySimilarity ogsCexInput).bind (fun l => l[1]?)) = some ogsCexC1 ∧
    ogsCexC2 ∈ ogsWindow ogsCexStart (ogsCexInput.tail) ∧
    localScore ogsCexStart ogsCexC1 = 8 ∧
    localScore ogsCexStart ogsCexC2 = 9 :=
  ⟨by decide, by decide, by decide, by decide⟩

/-! ### The Local Search Refiner (spec section 4.5) -/

/-- Boundary score against an optional left neighbour. -/
def edgeScoreL : Option Frameglass → Frameglass → Nat
  | none, _ => 0
  | some a, x => localScore a x

/-- Boundary score against an optional right neighbour. -/
def edgeScoreR (x : Frameglass) : Option Frameglass → Nat
  | none => 0
  | some b => localScore x b

/-- Modelled from the spec: the Local Search Refiner is absent from the
sources under src/ (no swap pass exists in any script); spec section
4.5 words one pass as iterating the adjacent index pairs `(i, i+1)` in
order, swapping a pair exactly when the sum of the two affected
boundary scores strictly increases (the middle boundary is unchanged
by symmetry), and counting the swaps kept. -/
def onePassGo : Nat → Option Frameglass → List Frameglass → List Frameglass × Nat
  | fuel + 1, prev, x :: y :: rest =>
      if edgeScoreL prev x + edgeScoreR y rest.head?
          < edgeScoreL prev y + edgeScoreR x rest.head? then
        (y :: (onePassGo fuel (some y) (x :: rest)).1,
          (onePassGo fuel (some y) (x :: rest)).2 + 1)
      else
        (x :: (onePassGo fuel (some x) (y :: rest)).1,
          (onePassGo fuel (some x) (y :: rest)).2)
  | _, _, l => (l, 0)

/-- Modelled from the spec: run at most the given number of refinement
passes, stopping early — with the convergence flag set — when a pass
keeps zero swaps; returns the refined sequence, the convergence flag
and the total number of swaps performed. -/
def refineLoop : Nat → List Frameglass → Nat → List Frameglass × Bool × Nat
  | 0, s, acc => (s, false, acc)
  | k + 1, s, acc =>
      if (onePassGo s.length none s).2 = 0 then (s, true, acc)
      else refineLoop k (onePassGo s.length none s).1 (acc + (onePassGo s.length none s).2)

/-- Modelled from the spec: the Local Search Refiner entry point. -/
def refineRun (maxPasses : Nat) (s : List Frameglass) : List Frameglass × Bool × Nat :=
  refineLoop maxPasses s 0

theorem onePass_zero_id :
    ∀ (fuel : Nat) (prev : Option Frameglass) (l : List Frameglass),
      (onePassGo fuel prev l).2 = 0 → (onePassGo fuel prev l).1 = l := by
  intro fuel
  induction fuel with
  | zero => intro prev l h; rfl
  | succ fuel ih =>
    intro prev l h
    match l with
    | [] => rfl
    | [x] => rfl
    | x :: y :: rest =>
      by_cases hc : edgeScoreL prev x + edgeScoreR y rest.head?
          < edgeScoreL prev y + edgeScoreR x rest.head?
      · have h2 : (onePassGo (fuel + 1) prev (x :: y :: rest)).2
            = (onePassGo fuel (some y) (x :: rest)).2 + 1 := by
          simp only [onePassGo]
          rw [if_pos hc]
        rw [h2] at h
        omega
      · have h1 : (onePassGo (fuel + 1) prev (x :: y :: rest)).1
            = x :: (onePassGo fuel (some x) (y :: rest)).1 := by
          simp only [onePassGo]
          rw [if_neg hc]
        have h2 : (onePassGo (fuel + 1) prev (x :: y :: rest)).2
            = (onePassGo fuel (some x) (y :: rest)).2 := by
          simp only [onePassGo]
          rw [if_neg hc]
        rw [h2] at h
        rw [h1, ih (some x) (y :: rest) h]

theorem refineLoop_converged :
    ∀ (k : Nat) (s : List Frameglass) (acc : Nat) (s2 : List Frameglass) (n : Nat),
      refineLoop k s acc = (s2, true, n) → (onePassGo s2.length none s2).2 = 0 := by
  intro k
  induction k with
  | zero =>
    intro s acc s2 n h
    simp only [refineLoop, Prod.mk.injEq] at h
    exact absurd h.2.1 (by simp)
  | succ k ih =>
    intro s acc s2 n h
    by_cases hz : (onePassGo s.length none s).2 = 0
    · simp only [refineLoop] at h
      rw [if_pos hz] at h
      simp only [Prod.mk.injEq] at h
      obtain ⟨h1, _, _⟩ := h
      subst h1
      exact hz
    · simp only [refineLoop] at h
      rw [if_neg hz] at h
      exact ih _ _ _ _ h

/-- C10 (spec-modelled): the refiner is idempotent once converged — if
a refinement run reports convergence (a pass kept zero swaps), running
refinement again on its output returns the identical sequence, reports
convergence, and performs zero swaps in total. -/
theorem refine_idempotent_once_converged
    (maxP : Nat) (s s2 : List Frameglass) (n : Nat)
    (h : refineRun maxP s = (s2, true, n)) (maxP2 : Nat) (h2 : 1 ≤ maxP2) :
    refineRun maxP2 s2 = (s2, true, 0) := by
  have hz : (onePassGo s2.length none s2).2 = 0 := refineLoop_converged maxP s 0 s2 n h
  obtain ⟨k, rfl⟩ : ∃ k, maxP2 = k + 1 := ⟨maxP2 - 1, by omega⟩
  unfold refineRun
  simp only [refineLoop]
  rw [if_pos hz]

def wFgA : Frameglass := ⟨[⟨0, Ori.L, ({0, 1} : Finset Nat)⟩]⟩
def wFgB : Frameglass := ⟨[⟨1, Ori.L, ({1, 2} : Finset Nat)⟩]⟩

/-- C10 witness: the concrete two-frame sequence `[wFgA, wFgB]` is
already converged under refinement (`refineRun 4` reports convergence
in zero swaps), and the theorem applied at it gives the identical
output, convergence and zero swaps for a second run. -/
theorem refine_idempotent_once_converged_witness :
    refineRun 4 [wFgA, wFgB] = ([wFgA, wFgB], true, 0) ∧
    refineRun 1 [wFgA, wFgB] = ([wFgA, wFgB], true, 0) :=
  ⟨by decide,
    refine_idempotent_once_converged 4 [wFgA, wFgB] [wFgA, wFgB] 0 (by decide) 1 (by decide)⟩

/-- C8 (code evaluation at the failing input): on the empty catalog the
frame builders yield zero frames, the global score is 0, and the
ordering strategies return the empty sequence — except
`order_greedy_similarity` of `op1gpt.py`, which executes
`remaining.pop(0)` on the empty list and raises IndexError, modelled
here as `none`. -/
theorem empty_catalog_behavior :
    pyCreateFrameglasses [] [] = [] ∧
    optCreateFrames [] [] = [] ∧
    naveenCreateFrameglasses [] = [] ∧
    totalScore [] = 0 ∧
    orderSame [] = [] ∧
    orderReverse [] = [] ∧
    pyOrderByTagCount [] = [] ∧
    (orderRandom [] (fun k => k)).1 = [] ∧
    orderGreedy [] = [] ∧
    stratGreedyFast [] = [] ∧
    orderGreedySimilarity [] = none :=
  ⟨rfl, rfl, rfl, rfl, rfl, rfl, rfl, rfl, rfl, rfl, rfl⟩
